import Mathlib

/-
Verification of the keyboard-adjacency-graph builder
(data-scripts/build_keyboard_adjacency_graphs.py).

The script turns ASCII-art keyboard diagrams into adjacency graphs.  The
shallow embedding below models Python strings as `List Char` (one element per
code point, as in Python), Python's `str.split()` / `str.split('\n')` /
`str.index` as the functions `pySplit` / `splitLines` / `strIndexOf`, Python
dicts (insertion ordered, assignment replaces in place) as association lists
with `dictInsert` / `dictGet`, Python's `divmod` on ints as `Int.fdiv` /
`Int.fmod` (floor semantics, exactly Python's), and a failing `assert` (or an
uncaught `IndexError` / `ValueError`) as an `Except.error`.
-/

set_option maxRecDepth 8000

namespace KeyboardGraphs

/-- The whitespace characters recognised by Python's `str.split()` that can
occur in the script's data (ASCII whitespace). -/
def pyIsSpace (c : Char) : Bool :=
  c = ' ' || c = '\t' || c = '\n' || c = '\x0d' || c = '\x0b' || c = '\x0c'

/-- Helper for `pySplit`: `acc` holds the characters of the current token in
reverse order. -/
def pySplitAux : List Char → List Char → List (List Char)
  | [], acc => if acc = [] then [] else [acc.reverse]
  | c :: rest, acc =>
      if pyIsSpace c then
        if acc = [] then pySplitAux rest []
        else acc.reverse :: pySplitAux rest []
      else pySplitAux rest (c :: acc)

/-- Python's `s.split()`: split on runs of whitespace, no empty tokens. -/
def pySplit (s : List Char) : List (List Char) :=
  pySplitAux s []

/-- Helper for `splitLines`. -/
def splitLinesAux : List Char → List Char → List (List Char)
  | [], acc => [acc.reverse]
  | c :: rest, acc =>
      if c = '\n' then acc.reverse :: splitLinesAux rest []
      else splitLinesAux rest (c :: acc)

/-- Python's `s.split('\n')`: split at every newline, keeping empty pieces. -/
def splitLines (s : List Char) : List (List Char) :=
  splitLinesAux s []

/-- `startsWith s p`: `p` is a prefix of `s` (both as raw character lists). -/
def startsWith : List Char → List Char → Bool
  | _, [] => true
  | [], _ :: _ => false
  | c :: s, d :: p => c = d && startsWith s p

/-- Python's `s.index(pat)`: index of the first occurrence of `pat` as a
substring of `s` (`none` models the `ValueError` when there is none). -/
def strIndexOf : List Char → List Char → Option Nat
  | [], pat => if startsWith [] pat then some 0 else none
  | c :: rest, pat =>
      if startsWith (c :: rest) pat then some 0
      else (strIndexOf rest pat).map (fun i => i + 1)

/-- A grid coordinate `(x, y)`: column, row. -/
abbrev Coord := Int × Int

/-- A key legend: the characters printed on one key, e.g. `"gG"`. -/
abbrev Legend := List Char

/-- The script's `position_table`: a Python dict from coordinate to legend,
modelled as an insertion-ordered association list. -/
abbrev PosTable := List (Coord × Legend)

/-- The script's `adjacency_graph`: a Python dict from a single character to
its directional neighbor slots (`none` models Python's `None`). -/
abbrev Graph := List (Char × List (Option Legend))

/-- Python dict assignment `d[k] = v`: replace in place if the key is present
(keeping its position, as Python dicts do), else append at the end. -/
def dictInsert {α β : Type} [DecidableEq α] : List (α × β) → α → β → List (α × β)
  | [], k, v => [(k, v)]
  | (k', v') :: rest, k, v =>
      if k' = k then (k, v) :: rest else (k', v') :: dictInsert rest k v

/-- Python's `d.get(k, None)` / `k in d` lookups: first (only) binding of `k`. -/
def dictGet {α β : Type} [DecidableEq α] : List (α × β) → α → Option β
  | [], _ => none
  | (k', v) :: rest, k => if k' = k then some v else dictGet rest k

/-- Source lines 66-73: the six slanted-geometry neighbor coordinates of
`(x, y)`, clockwise starting with the key to the left. -/
def get_slanted_adjacent_coords (x y : Int) : List Coord :=
  [(x-1, y), (x, y-1), (x+1, y-1), (x+1, y), (x, y+1), (x-1, y+1)]

/-- Source lines 75-79: the eight aligned-geometry neighbor coordinates of
`(x, y)`, clockwise starting with the key to the left. -/
def get_aligned_adjacent_coords (x y : Int) : List Coord :=
  [(x-1, y), (x-1, y-1), (x, y-1), (x+1, y-1), (x+1, y), (x+1, y+1), (x, y+1), (x-1, y+1)]

/-- `adjacency_func` selected by the geometry flag. -/
def adjCoords (slanted : Bool) (x y : Int) : List Coord :=
  if slanted then get_slanted_adjacent_coords x y else get_aligned_adjacent_coords x y

/-- The ways `build_graph` can abort: a failing width assert, the remainder
assert, Python's `ValueError` from `line.index` (unreachable for tokens that
came from the line), or the `IndexError` of `tokens[0]` on a blank diagram. -/
inductive BuildError : Type
  | emptyLayout : BuildError
  | tokenLenMismatch : BuildError
  | badOffset : Legend → BuildError
  | tokenNotFound : Legend → BuildError
deriving DecidableEq, Repr

/-- `slant = y - 1 if slanted else 0` (source line 90). -/
def slantOf (slanted : Bool) (y : Int) : Int :=
  if slanted then y - 1 else 0

/-- The inner loop of source lines 91-94: place each token of one line.
`x, remainder = divmod(line.index(token) - slant, x_unit)`; the remainder
must be zero, then `position_table[(x, y)] = token`. -/
def placeTokens (line : Legend) (y slant x_unit : Int) :
    List Legend → PosTable → Except BuildError PosTable
  | [], tbl => .ok tbl
  | tok :: rest, tbl =>
      match strIndexOf line tok with
      | none => .error (.tokenNotFound tok)
      | some idx =>
          if Int.fmod ((idx : Int) - slant) x_unit = 0 then
            placeTokens line y slant x_unit rest
              (dictInsert tbl (Int.fdiv ((idx : Int) - slant) x_unit, y) tok)
          else .error (.badOffset tok)

/-- The outer loop of source lines 88-94: `for y, line in
enumerate(layout_str.split('\n'))`, rows numbered from `y` upward. -/
def placeLines (slanted : Bool) (x_unit : Int) :
    List Legend → Int → PosTable → Except BuildError PosTable
  | [], _, tbl => .ok tbl
  | line :: rest, y, tbl =>
      match placeTokens line y (slantOf slanted y) x_unit (pySplit line) tbl with
      | .error e => .error e
      | .ok tbl' => placeLines slanted x_unit rest (y + 1) tbl'

/-- `token_size = len(tokens[0])` (source line 83); 0 when there is no token
(where Python would raise an `IndexError`). -/
def tokenSize (layout : List Char) : Nat :=
  match pySplit layout with
  | [] => 0
  | t :: _ => t.length

/-- `x_unit = token_size + 1` (source line 84). -/
def xUnit (layout : List Char) : Int :=
  (tokenSize layout : Int) + 1

/-- Source lines 81-94: tokenize, check that every token has the width of the
first one (`assert all(len(token) == token_size for token in tokens)`), then
fill the position table line by line starting at row 0. -/
def build_position_table (layout : List Char) (slanted : Bool) :
    Except BuildError PosTable :=
  match pySplit layout with
  | [] => .error .emptyLayout
  | t0 :: ts =>
      if (t0 :: ts).all (fun t => t.length = t0.length) then
        placeLines slanted (xUnit layout) (splitLines layout) 0 []
      else .error .tokenLenMismatch

/-- Source line 114: one neighbor-slot list, `position_table.get(coord, None)`
for each direction offset of `(x, y)`. -/
def neighborSlots (slanted : Bool) (tbl : PosTable) (x y : Int) : List (Option Legend) :=
  (adjCoords slanted x y).map (fun c => dictGet tbl c)

/-- Source lines 111-118: `for char in chars: adjacency_graph[char] = []`
followed by the appends — each character of the legend ends bound to the full
slot list of this key. -/
def addChars (slots : List (Option Legend)) : List Char → Graph → Graph
  | [], g => g
  | c :: cs, g => addChars slots cs (dictInsert g c slots)

/-- Source lines 110-118: `for (x, y), chars in position_table.items()`, in
dict insertion order. -/
def addEntries (slanted : Bool) (tbl : PosTable) : List (Coord × Legend) → Graph → Graph
  | [], g => g
  | ((x, y), chars) :: rest, g =>
      addEntries slanted tbl rest (addChars (neighborSlots slanted tbl x y) chars g)

/-- Source lines 81-119, the whole of `build_graph`: build the position table,
then the adjacency graph from it. -/
def build_graph (layout : List Char) (slanted : Bool) : Except BuildError Graph :=
  match build_position_table layout slanted with
  | .error e => .error e
  | .ok tbl => .ok (addEntries slanted tbl tbl [])

/-- The last entry of the table (in insertion order) whose legend contains
the character `c`. -/
def lastEntryWith (entries : List (Coord × Legend)) (c : Char) : Option (Coord × Legend) :=
  entries.foldl (fun acc e => if c ∈ e.2 then some e else acc) none

/-- How many bindings an association list holds for key `c`. -/
def keyCount (g : Graph) (c : Char) : Nat :=
  List.count c (g.map Prod.fst)

/-- The width check of source line 86 as a decidable predicate: there is a
first token and every token has its length. -/
def widthOk (layout : List Char) : Bool :=
  match pySplit layout with
  | [] => false
  | t0 :: ts => (t0 :: ts).all (fun t => t.length = t0.length)

/-- The remainder check of source lines 92-93 for one token: it occurs in the
line and its offset minus the slant is divisible by `u`. -/
def tokOk (line : Legend) (slant u : Int) (t : Legend) : Bool :=
  match strIndexOf line t with
  | none => false
  | some i => Int.fmod ((i : Int) - slant) u == 0

/-- The remainder checks of source lines 92-93 for one whole line. -/
def lineOffsetsOk (line : Legend) (slant u : Int) : Bool :=
  (pySplit line).all (tokOk line slant u)

/-- The remainder checks for all lines, rows numbered from `y` upward. -/
def linesOk (slanted : Bool) (u : Int) : List Legend → Int → Bool
  | [], _ => true
  | line :: rest, y => lineOffsetsOk line (slantOf slanted y) u && linesOk slanted u rest (y + 1)

/-- Source lines 17-22: the `qwerty_en` layout diagram (a raw string starting
and ending with a newline). -/
def qwerty_en : List Char :=
  ("\n`~ 1! 2@ 3# 4$ 5% 6^ 7& 8* 9( 0) -_ =+\n    qQ wW eE rR tT yY uU iI oO pP [{ ]} \\|\n     aA sS dD fF gG hH jJ kK lL ;: '\"\n      zZ xX cC vV bB nN mM ,< .> /?\n").data

/-- Source lines 33-38: the `qwertz_de` layout diagram (note `zZ` appears on
two different rows). -/
def qwertz_de : List Char :=
  ("\n^° 1! 2\" 3§ 4$ 5% 6& 7/ 8( 9) 0= ß? ´`\n    qQ wW eE rR tT zZ uU iI oO pP üÜ +*\n     aA sS dD fF gG hH jJ kK lL öÖ äÄ #'\n   <> zZ xX cC vV bB nN mM ,; .: -_\n").data

/-- Source lines 57-62: the `keypad` layout diagram (top row `/ * -`; this
diagram has no `=` key). -/
def keypad : List Char :=
  ("\n  / * -\n7 8 9 +\n4 5 6\n1 2 3\n  0 .\n").data

/-- Source lines 64-69: the `mac_keypad` layout diagram (top row `= / *`). -/
def mac_keypad : List Char :=
  ("\n  = / *\n7 8 9 -\n4 5 6 +\n1 2 3\n  0 .\n").data

/-- A one-line diagram whose two (identical) tokens resolve to the same
coordinate `(0, 0)`. -/
def dupLayout : List Char :=
  ("aA aA").data

/-- A diagram whose second token is narrower than its first. -/
def badLayout : List Char :=
  ("ab c").data

/-- The position table the build produces for the `keypad` diagram. -/
def keypadTable : PosTable :=
  match build_position_table keypad false with
  | .ok t => t
  | .error _ => []

/-- The adjacency graph the build produces for the `keypad` diagram. -/
def keypadGraph : Graph :=
  match build_graph keypad false with
  | .ok g => g
  | .error _ => []

/-- The adjacency graph the build produces for the `mac_keypad` diagram. -/
def macKeypadGraph : Graph :=
  match build_graph mac_keypad false with
  | .ok g => g
  | .error _ => []

/-- The adjacency graph the build produces for the `qwerty_en` diagram. -/
def qwertyGraph : Graph :=
  match build_graph qwerty_en true with
  | .ok g => g
  | .error _ => []

/-- The position table the build produces for the `qwertz_de` diagram. -/
def qwertzTable : PosTable :=
  match build_position_table qwertz_de true with
  | .ok t => t
  | .error _ => []

/-! ### Association-list (Python dict) lemmas -/

theorem dictGet_dictInsert_self {α β : Type} [DecidableEq α] (t : List (α × β)) (k : α) (v : β) :
    dictGet (dictInsert t k v) k = some v := by
  induction t with
  | nil => simp [dictInsert, dictGet]
  | cons e rest ih =>
      obtain ⟨k0, v0⟩ := e
      by_cases h0 : k0 = k
      · simp [dictInsert, h0, dictGet]
      · simp [dictInsert, h0, dictGet, ih]

theorem dictGet_dictInsert_ne {α β : Type} [DecidableEq α] (t : List (α × β)) (k k' : α) (v : β)
    (h : k' ≠ k) : dictGet (dictInsert t k v) k' = dictGet t k' := by
  induction t with
  | nil => simp [dictInsert, dictGet, Ne.symm h]
  | cons e rest ih =>
      obtain ⟨k0, v0⟩ := e
      by_cases h0 : k0 = k
      · subst h0
        simp [dictInsert, dictGet, Ne.symm h]
      · simp [dictInsert, h0, dictGet, ih]

theorem dictGet_dictInsert_isSome {α β : Type} [DecidableEq α] (t : List (α × β)) (k k' : α)
    (v : β) (h : (dictGet t k').isSome) : (dictGet (dictInsert t k v) k').isSome := by
  by_cases hk : k' = k
  · subst hk
    simp [dictGet_dictInsert_self]
  · rwa [dictGet_dictInsert_ne _ _ _ _ hk]

theorem mem_of_dictGet_eq_some {α β : Type} [DecidableEq α] {t : List (α × β)} {k : α} {v : β}
    (h : dictGet t k = some v) : (k, v) ∈ t := by
  induction t with
  | nil => simp [dictGet] at h
  | cons e rest ih =>
      obtain ⟨k0, v0⟩ := e
      by_cases h0 : k0 = k
      · subst h0
        simp [dictGet] at h
        simp [h]
      · simp [dictGet, h0] at h
        exact List.mem_cons_of_mem _ (ih h)

theorem mem_keys_dictInsert {α β : Type} [DecidableEq α] {t : List (α × β)} {k k' : α} {v : β} :
    k' ∈ (dictInsert t k v).map Prod.fst ↔ k' ∈ t.map Prod.fst ∨ k' = k := by
  induction t with
  | nil => simp [dictInsert]
  | cons e rest ih =>
      obtain ⟨k0, v0⟩ := e
      by_cases h0 : k0 = k
      · subst h0
        simp [dictInsert]
        tauto
      · simp [dictInsert, h0, ih]
        tauto

theorem dictGet_isSome_iff_mem_keys {α β : Type} [DecidableEq α] {t : List (α × β)} {k : α} :
    (dictGet t k).isSome ↔ k ∈ t.map Prod.fst := by
  induction t with
  | nil => simp [dictGet]
  | cons e rest ih =>
      obtain ⟨k0, v0⟩ := e
      by_cases h0 : k0 = k
      · subst h0
        simp [dictGet]
      · simp [dictGet, h0, ih, Ne.symm h0]

theorem nodup_keys_dictInsert {α β : Type} [DecidableEq α] {t : List (α × β)} (k : α) (v : β)
    (h : (t.map Prod.fst).Nodup) : ((dictInsert t k v).map Prod.fst).Nodup := by
  induction t with
  | nil => simp [dictInsert]
  | cons e rest ih =>
      obtain ⟨k0, v0⟩ := e
      simp only [List.map_cons, List.nodup_cons] at h
      by_cases h0 : k0 = k
      · subst h0
        simpa [dictInsert] using h
      · simp only [dictInsert, h0, if_false, List.map_cons, List.nodup_cons]
        refine ⟨fun hmem => ?_, ih h.2⟩
        rcases mem_keys_dictInsert.1 hmem with hm | hm
        · exact h.1 hm
        · exact h0 hm

/-! ### `startsWith` and `strIndexOf` lemmas -/

theorem startsWith_inj {s p1 p2 : List Char} (h1 : startsWith s p1 = true)
    (h2 : startsWith s p2 = true) (hl : p1.length = p2.length) : p1 = p2 := by
  induction p1 generalizing s p2 with
  | nil =>
      cases p2 with
      | nil => rfl
      | cons c2 r2 => simp at hl
  | cons c1 r1 ih =>
      cases p2 with
      | nil => simp at hl
      | cons c2 r2 =>
          cases s with
          | nil => simp [startsWith] at h1
          | cons c s' =>
              simp only [startsWith, Bool.and_eq_true, decide_eq_true_eq] at h1 h2
              simp only [List.length_cons, Nat.add_right_cancel_iff] at hl
              rw [← h1.1, ← h2.1]
              rw [ih h1.2 h2.2 hl]

theorem strIndexOf_startsWith {s pat : List Char} {i : Nat}
    (h : strIndexOf s pat = some i) : startsWith (s.drop i) pat = true := by
  induction s generalizing i with
  | nil =>
      by_cases hs : startsWith [] pat = true
      · simp only [strIndexOf, hs, if_true, Option.some.injEq] at h
        subst h
        simpa using hs
      · simp [strIndexOf, hs] at h
  | cons c rest ih =>
      by_cases hs : startsWith (c :: rest) pat = true
      · simp only [strIndexOf, hs, if_true, Option.some.injEq] at h
        subst h
        simpa using hs
      · cases hrec : strIndexOf rest pat with
        | none => simp [strIndexOf, hs, hrec] at h
        | some j =>
            simp [strIndexOf, hs, hrec] at h
            subst h
            simpa using ih hrec

theorem strIndexOf_first {s pat : List Char} {i : Nat}
    (h : strIndexOf s pat = some i) : ∀ j, j < i → startsWith (s.drop j) pat = false := by
  induction s generalizing i with
  | nil =>
      by_cases hs : startsWith [] pat = true
      · simp only [strIndexOf, hs, if_true, Option.some.injEq] at h
        subst h
        intro j hj
        exact absurd hj (Nat.not_lt_zero j)
      · simp [strIndexOf, hs] at h
  | cons c rest ih =>
      by_cases hs : startsWith (c :: rest) pat = true
      · simp only [strIndexOf, hs, if_true, Option.some.injEq] at h
        subst h
        intro j hj
        exact absurd hj (Nat.not_lt_zero j)
      · cases hrec : strIndexOf rest pat with
        | none => simp [strIndexOf, hs, hrec] at h
        | some j0 =>
            simp [strIndexOf, hs, hrec] at h
            subst h
            intro j hj
            cases j with
            | zero =>
                simp only [List.drop_zero]
                exact Bool.not_eq_true _ ▸ eq_false_of_ne_true hs
            | succ j' =>
                simpa using ih hrec j' (by omega)

theorem strIndexOf_isSome_of_occurs {s pat : List Char}
    (h : ∃ i, startsWith (s.drop i) pat = true) : (strIndexOf s pat).isSome := by
  induction s with
  | nil =>
      obtain ⟨i, hi⟩ := h
      simp only [List.drop_nil] at hi
      simp [strIndexOf, hi]
  | cons c rest ih =>
      by_cases hs : startsWith (c :: rest) pat = true
      · simp [strIndexOf, hs]
      · obtain ⟨i, hi⟩ := h
        cases i with
        | zero => exact absurd (by simpa using hi) hs
        | succ i' =>
            have hrec := ih ⟨i', by simpa using hi⟩
            simp only [strIndexOf, hs, if_false]
            simpa using hrec

/-! ### Python `divmod` (floor division) lemmas -/

theorem fdiv_fmod_inj (a b u : Int) (ha : Int.fmod a u = 0) (hb : Int.fmod b u = 0)
    (h : Int.fdiv a u = Int.fdiv b u) : a = b := by
  have h1 := Int.fdiv_add_fmod a u
  have h2 := Int.fdiv_add_fmod b u
  rw [ha, add_zero] at h1
  rw [hb, add_zero] at h2
  rw [← h1, ← h2, h]

/-! ### `pySplit` / `splitLines` lemmas: tokenizing the whole diagram agrees
with tokenizing it line by line, and every token occurs in its string. -/

theorem pySplitAux_append (l2 : List Char) (c : Char) (hc : pyIsSpace c = true) :
    ∀ (l1 acc : List Char),
      pySplitAux (l1 ++ c :: l2) acc = pySplitAux l1 acc ++ pySplitAux l2 [] := by
  intro l1
  induction l1 with
  | nil =>
      intro acc
      by_cases ha : acc = ([] : List Char)
      · simp [pySplitAux, hc, ha]
      · simp [pySplitAux, hc, ha]
  | cons d r ih =>
      intro acc
      by_cases hd : pyIsSpace d = true
      · by_cases ha : acc = ([] : List Char) <;>
          simp [pySplitAux, hd, ha, ih]
      · simp [pySplitAux, hd, ih]

theorem splitLinesAux_flatMap (s : List Char) :
    ∀ acc, (splitLinesAux s acc).flatMap pySplit = pySplitAux (acc.reverse ++ s) [] := by
  induction s with
  | nil =>
      intro acc
      simp [splitLinesAux, pySplit]
  | cons c rest ih =>
      intro acc
      by_cases hc : c = '\n'
      · subst hc
        have hsp : pyIsSpace '\n' = true := by decide
        have hstep : splitLinesAux ('\n' :: rest) acc = acc.reverse :: splitLinesAux rest [] := by
          simp [splitLinesAux]
        rw [hstep, List.flatMap_cons, ih [], pySplitAux_append rest '\n' hsp acc.reverse []]
        simp [pySplit]
      · simp only [splitLinesAux, hc, if_false, ih (c :: acc), List.reverse_cons,
          List.append_assoc, List.cons_append, List.nil_append]

/-- Tokenizing the whole diagram (`layout_str.split()`, source line 82) gives
the same tokens as tokenizing each line of `layout_str.split('\n')`. -/
theorem flatMap_splitLines (s : List Char) :
    (splitLines s).flatMap pySplit = pySplit s := by
  simpa [pySplit] using splitLinesAux_flatMap s []

theorem mem_pySplit_of_mem_line {layout line t : List Char}
    (hl : line ∈ splitLines layout) (ht : t ∈ pySplit line) : t ∈ pySplit layout := by
  rw [← flatMap_splitLines layout]
  exact List.mem_flatMap.2 ⟨line, hl, ht⟩

theorem mem_pySplitAux_occurs {t : List Char} :
    ∀ {s acc : List Char}, t ∈ pySplitAux s acc →
      (∃ i, startsWith (s.drop i) t = true) ∨
      (∃ u, t = acc.reverse ++ u ∧ startsWith s u = true) := by
  intro s
  induction s with
  | nil =>
      intro acc h
      by_cases ha : acc = ([] : List Char)
      · simp [pySplitAux, ha] at h
      · simp only [pySplitAux, ha, if_false, List.mem_singleton] at h
        subst h
        exact Or.inr ⟨[], by simp, by simp [startsWith]⟩
  | cons c rest ih =>
      intro acc h
      by_cases hc : pyIsSpace c = true
      · have after (h' : t ∈ pySplitAux rest []) :
            (∃ i, startsWith ((c :: rest).drop i) t = true) ∨
            (∃ u, t = acc.reverse ++ u ∧ startsWith (c :: rest) u = true) := by
          rcases ih h' with ⟨i, hi⟩ | ⟨u, hu, hsu⟩
          · exact Or.inl ⟨i + 1, by simpa using hi⟩
          · simp only [List.reverse_nil, List.nil_append] at hu
            subst hu
            exact Or.inl ⟨1, by simpa using hsu⟩
        by_cases ha : acc = ([] : List Char)
        · exact after (by simpa [pySplitAux, hc, ha] using h)
        · simp only [pySplitAux, hc, if_true, ha, if_false, List.mem_cons] at h
          rcases h with h | h
          · subst h
            exact Or.inr ⟨[], by simp, by simp [startsWith]⟩
          · exact after h
      · simp only [pySplitAux, hc, if_false] at h
        rcases ih h with ⟨i, hi⟩ | ⟨u, hu, hsu⟩
        · exact Or.inl ⟨i + 1, by simpa using hi⟩
        · refine Or.inr ⟨c :: u, ?_, ?_⟩
          · rw [hu]
            simp
          · simp [startsWith, hsu]

/-- Every token produced by `line.split()` occurs in `line`, so
`line.index(token)` (source line 92) cannot raise. -/
theorem strIndexOf_isSome_of_mem_pySplit {s t : List Char} (h : t ∈ pySplit s) :
    (strIndexOf s t).isSome := by
  rcases mem_pySplitAux_occurs h with ⟨i, hi⟩ | ⟨u, hu, hsu⟩
  · exact strIndexOf_isSome_of_occurs ⟨i, hi⟩
  · simp only [List.reverse_nil, List.nil_append] at hu
    subst hu
    exact strIndexOf_isSome_of_occurs ⟨0, by simpa using hsu⟩

/-! ### `placeTokens` lemmas (inner loop, source lines 91-94) -/

theorem placeTokens_ok_mono {line : Legend} {y slant u : Int} :
    ∀ {toks : List Legend} {tbl tbl' : PosTable},
      placeTokens line y slant u toks tbl = .ok tbl' →
      ∀ k, (dictGet tbl k).isSome → (dictGet tbl' k).isSome := by
  intro toks
  induction toks with
  | nil =>
      intro tbl tbl' h k hk
      simp only [placeTokens, Except.ok.injEq] at h
      subst h
      exact hk
  | cons tok rest ih =>
      intro tbl tbl' h k hk
      cases hidx : strIndexOf line tok with
      | none => simp [placeTokens, hidx] at h
      | some idx =>
          by_cases hmod : Int.fmod ((idx : Int) - slant) u = 0
          · simp only [placeTokens, hidx, hmod, if_true] at h
            exact ih h k (dictGet_dictInsert_isSome _ _ _ _ hk)
          · simp [placeTokens, hidx, hmod] at h

theorem placeTokens_preserve_ne_row {line : Legend} {y slant u : Int} :
    ∀ {toks : List Legend} {tbl tbl' : PosTable},
      placeTokens line y slant u toks tbl = .ok tbl' →
      ∀ k : Coord, k.2 ≠ y → dictGet tbl' k = dictGet tbl k := by
  intro toks
  induction toks with
  | nil =>
      intro tbl tbl' h k hk
      simp only [placeTokens, Except.ok.injEq] at h
      subst h
      rfl
  | cons tok rest ih =>
      intro tbl tbl' h k hk
      cases hidx : strIndexOf line tok with
      | none => simp [placeTokens, hidx] at h
      | some idx =>
          by_cases hmod : Int.fmod ((idx : Int) - slant) u = 0
          · simp only [placeTokens, hidx, hmod, if_true] at h
            rw [ih h k hk]
            exact dictGet_dictInsert_ne _ _ _ _ (fun he => hk (by rw [he]))
          · simp [placeTokens, hidx, hmod] at h

theorem placeTokens_provenance {line : Legend} {y slant u : Int} :
    ∀ {toks : List Legend} {tbl tbl' : PosTable},
      placeTokens line y slant u toks tbl = .ok tbl' →
      ∀ k v, dictGet tbl' k = some v →
        dictGet tbl k = some v ∨
        (v ∈ toks ∧ ∃ i, strIndexOf line v = some i ∧
          Int.fmod ((i : Int) - slant) u = 0 ∧
          k = (Int.fdiv ((i : Int) - slant) u, y)) := by
  intro toks
  induction toks with
  | nil =>
      intro tbl tbl' h k v hv
      simp only [placeTokens, Except.ok.injEq] at h
      subst h
      exact Or.inl hv
  | cons tok rest ih =>
      intro tbl tbl' h k v hv
      cases hidx : strIndexOf line tok with
      | none => simp [placeTokens, hidx] at h
      | some idx =>
          by_cases hmod : Int.fmod ((idx : Int) - slant) u = 0
          · simp only [placeTokens, hidx, hmod, if_true] at h
            rcases ih h k v hv with hleft | ⟨hvmem, i, hi, hm, hk⟩
            · by_cases hkey : k = (Int.fdiv ((idx : Int) - slant) u, y)
              · subst hkey
                rw [dictGet_dictInsert_self] at hleft
                injection hleft with hleft
                subst hleft
                exact Or.inr ⟨List.mem_cons_self tok rest, idx, hidx, hmod, rfl⟩
              · rw [dictGet_dictInsert_ne _ _ _ _ hkey] at hleft
                exact Or.inl hleft
            · exact Or.inr ⟨List.mem_cons_of_mem _ hvmem, i, hi, hm, hk⟩
          · simp [placeTokens, hidx, hmod] at h

theorem placeTokens_ok_mem {line : Legend} {y slant u : Int} {sz : Nat} :
    ∀ {toks : List Legend} {tbl tbl' : PosTable},
      (∀ t ∈ toks, t.length = sz) →
      placeTokens line y slant u toks tbl = .ok tbl' →
      ∀ t ∈ toks, ∃ i, strIndexOf line t = some i ∧
        Int.fmod ((i : Int) - slant) u = 0 ∧
        dictGet tbl' (Int.fdiv ((i : Int) - slant) u, y) = some t := by
  intro toks
  induction toks with
  | nil =>
      intro tbl tbl' _ _ t ht
      exact absurd ht (List.not_mem_nil t)
  | cons tok rest ih =>
      intro tbl tbl' hw h t ht
      cases hidx : strIndexOf line tok with
      | none => simp [placeTokens, hidx] at h
      | some idx =>
          by_cases hmod : Int.fmod ((idx : Int) - slant) u = 0
          · simp only [placeTokens, hidx, hmod, if_true] at h
            rcases List.mem_cons.1 ht with rfl | ht
            · refine ⟨idx, hidx, hmod, ?_⟩
              have h1 : dictGet (dictInsert tbl (Int.fdiv ((idx : Int) - slant) u, y) t)
                  (Int.fdiv ((idx : Int) - slant) u, y) = some t :=
                dictGet_dictInsert_self _ _ _
              have h2 : (dictGet tbl' (Int.fdiv ((idx : Int) - slant) u, y)).isSome :=
                placeTokens_ok_mono h _ (by simp [h1])
              obtain ⟨v, hv⟩ := Option.isSome_iff_exists.1 h2
              rcases placeTokens_provenance h _ v hv with hleft | ⟨hvmem, i', hi', hm', hk'⟩
              · rw [h1] at hleft
                injection hleft with hleft
                rw [hv, hleft]
              · have hcoord : Int.fdiv ((i' : Int) - slant) u = Int.fdiv ((idx : Int) - slant) u := by
                  have := congrArg Prod.fst hk'
                  simpa using this.symm
                have hsub : (i' : Int) - slant = (idx : Int) - slant :=
                  fdiv_fmod_inj _ _ _ hm' hmod hcoord
                have hieq : i' = idx := by omega
                subst hieq
                have s1 := strIndexOf_startsWith hi'
                have s2 := strIndexOf_startsWith hidx
                have hlen : v.length = t.length := by
                  rw [hw v (List.mem_cons_of_mem _ hvmem), hw t (List.mem_cons_self t rest)]
                rw [hv, startsWith_inj s1 s2 hlen]
            · exact ih (fun t' ht' => hw t' (List.mem_cons_of_mem _ ht')) h t ht
          · simp [placeTokens, hidx, hmod] at h

theorem placeTokens_ok_iff {line : Legend} {y slant u : Int} :
    ∀ {toks : List Legend} (tbl : PosTable),
      (∃ tbl', placeTokens line y slant u toks tbl = .ok tbl') ↔
      toks.all (tokOk line slant u) = true := by
  intro toks
  induction toks with
  | nil =>
      intro tbl
      simp [placeTokens]
  | cons tok rest ih =>
      intro tbl
      cases hidx : strIndexOf line tok with
      | none =>
          simp [placeTokens, hidx, tokOk]
      | some idx =>
          by_cases hmod : Int.fmod ((idx : Int) - slant) u = 0
          · have htok : tokOk line slant u tok = true := by simp [tokOk, hidx, hmod]
            have heq : placeTokens line y slant u (tok :: rest) tbl =
                placeTokens line y slant u rest
                  (dictInsert tbl (Int.fdiv ((idx : Int) - slant) u, y) tok) := by
              simp [placeTokens, hidx, hmod]
            rw [List.all_cons, htok, Bool.true_and, heq]
            exact ih _
          · simp [placeTokens, hidx, hmod, tokOk]

/-! ### `placeLines` lemmas (outer loop, source lines 88-94) -/

theorem placeLines_ok_mono {slanted : Bool} {u : Int} :
    ∀ {lines : List Legend} {y0 : Int} {tbl tbl' : PosTable},
      placeLines slanted u lines y0 tbl = .ok tbl' →
      ∀ k, (dictGet tbl k).isSome → (dictGet tbl' k).isSome := by
  intro lines
  induction lines with
  | nil =>
      intro y0 tbl tbl' h k hk
      simp only [placeLines, Except.ok.injEq] at h
      subst h
      exact hk
  | cons line rest ih =>
      intro y0 tbl tbl' h k hk
      cases hpt : placeTokens line y0 (slantOf slanted y0) u (pySplit line) tbl with
      | error e => simp [placeLines, hpt] at h
      | ok tbl1 =>
          simp only [placeLines, hpt] at h
          exact ih h k (placeTokens_ok_mono hpt k hk)

theorem placeLines_preserve_lt {slanted : Bool} {u : Int} :
    ∀ {lines : List Legend} {y0 : Int} {tbl tbl' : PosTable},
      placeLines slanted u lines y0 tbl = .ok tbl' →
      ∀ k : Coord, k.2 < y0 → dictGet tbl' k = dictGet tbl k := by
  intro lines
  induction lines with
  | nil =>
      intro y0 tbl tbl' h k hk
      simp only [placeLines, Except.ok.injEq] at h
      subst h
      rfl
  | cons line rest ih =>
      intro y0 tbl tbl' h k hk
      cases hpt : placeTokens line y0 (slantOf slanted y0) u (pySplit line) tbl with
      | error e => simp [placeLines, hpt] at h
      | ok tbl1 =>
          simp only [placeLines, hpt] at h
          rw [ih h k (by omega)]
          exact placeTokens_preserve_ne_row hpt k (by omega)

theorem placeLines_ok_mem {slanted : Bool} {u : Int} {sz : Nat} :
    ∀ {lines : List Legend} {y0 : Int} {tbl tbl' : PosTable},
      (∀ line ∈ lines, ∀ t ∈ pySplit line, t.length = sz) →
      placeLines slanted u lines y0 tbl = .ok tbl' →
      ∀ (n : Nat) (line : Legend), lines[n]? = some line →
        ∀ t ∈ pySplit line, ∃ i, strIndexOf line t = some i ∧
          Int.fmod ((i : Int) - slantOf slanted (y0 + n)) u = 0 ∧
          dictGet tbl' (Int.fdiv ((i : Int) - slantOf slanted (y0 + n)) u, y0 + n) = some t := by
  intro lines
  induction lines with
  | nil =>
      intro y0 tbl tbl' _ _ n line hn
      simp at hn
  | cons line0 rest ih =>
      intro y0 tbl tbl' hw h n line hn
      cases hpt : placeTokens line0 y0 (slantOf slanted y0) u (pySplit line0) tbl with
      | error e => simp [placeLines, hpt] at h
      | ok tbl1 =>
          simp only [placeLines, hpt] at h
          cases n with
          | zero =>
              simp only [List.getElem?_cons_zero, Option.some.injEq] at hn
              subst hn
              intro t ht
              obtain ⟨i, hi, hm, hg⟩ :=
                placeTokens_ok_mem (hw line0 (List.mem_cons_self _ _)) hpt t ht
              have hy : y0 + ((0 : Nat) : Int) = y0 := by simp
              refine ⟨i, hi, by rwa [hy], ?_⟩
              rw [hy]
              rw [placeLines_preserve_lt h _ (show y0 < y0 + 1 by omega)]
              exact hg
          | succ m =>
              simp only [List.getElem?_cons_succ] at hn
              have := ih (fun l hl => hw l (List.mem_cons_of_mem _ hl)) h m line hn
              have hy : y0 + 1 + ((m : Nat) : Int) = y0 + ((Nat.succ m : Nat) : Int) := by
                push_cast
                ring
              rwa [hy] at this

theorem placeLines_ok_iff {slanted : Bool} {u : Int} :
    ∀ {lines : List Legend} (y0 : Int) (tbl : PosTable),
      (∃ tbl', placeLines slanted u lines y0 tbl = .ok tbl') ↔
      linesOk slanted u lines y0 = true := by
  intro lines
  induction lines with
  | nil =>
      intro y0 tbl
      simp [placeLines, linesOk]
  | cons line rest ih =>
      intro y0 tbl
      cases hpt : placeTokens line y0 (slantOf slanted y0) u (pySplit line) tbl with
      | error e =>
          have hno : ¬ lineOffsetsOk line (slantOf slanted y0) u = true := by
            rw [lineOffsetsOk, ← placeTokens_ok_iff tbl]
            rintro ⟨tbl1, h1⟩
            rw [hpt] at h1
            exact absurd h1 (by simp)
          simp [placeLines, hpt, linesOk, hno]
      | ok tbl1 =>
          have hyes : lineOffsetsOk line (slantOf slanted y0) u = true := by
            rw [lineOffsetsOk, ← placeTokens_ok_iff tbl]
            exact ⟨tbl1, hpt⟩
          simp only [placeLines, hpt, linesOk, hyes, Bool.true_and]
          exact ih (y0 + 1) tbl1

/-! ### Graph-stage lemmas (source lines 110-118) -/

theorem mem_dictInsert {α β : Type} [DecidableEq α] {k : α} {v : β} :
    ∀ {t : List (α × β)} {e : α × β}, e ∈ dictInsert t k v → e ∈ t ∨ e = (k, v) := by
  intro t
  induction t with
  | nil =>
      intro e h
      simp only [dictInsert, List.mem_singleton] at h
      exact Or.inr h
  | cons e0 rest ih =>
      intro e h
      obtain ⟨k0, v0⟩ := e0
      by_cases h0 : k0 = k
      · subst h0
        simp only [dictInsert, if_true, eq_self_iff_true, reduceIte, List.mem_cons] at h
        rcases h with h | h
        · exact Or.inr h
        · exact Or.inl (List.mem_cons_of_mem _ h)
      · simp only [dictInsert, h0, if_false, List.mem_cons] at h
        rcases h with h | h
        · exact Or.inl (by rw [h]; exact List.mem_cons_self _ _)
        · rcases ih h with h' | h'
          · exact Or.inl (List.mem_cons_of_mem _ h')
          · exact Or.inr h'

theorem addChars_get_of_some {slots : List (Option Legend)} :
    ∀ {cs : List Char} {g : Graph} {c : Char},
      dictGet g c = some slots → dictGet (addChars slots cs g) c = some slots := by
  intro cs
  induction cs with
  | nil => intro g c h; exact h
  | cons c0 cs ih =>
      intro g c h
      apply ih
      by_cases h0 : c = c0
      · subst h0
        exact dictGet_dictInsert_self _ _ _
      · rw [dictGet_dictInsert_ne _ _ _ _ h0]
        exact h

theorem addChars_mem {slots : List (Option Legend)} :
    ∀ {cs : List Char} {g : Graph} {c : Char},
      c ∈ cs → dictGet (addChars slots cs g) c = some slots := by
  intro cs
  induction cs with
  | nil => intro g c h; exact absurd h (List.not_mem_nil c)
  | cons c0 cs ih =>
      intro g c h
      by_cases hc : c = c0
      · subst hc
        show dictGet (addChars slots cs (dictInsert g c slots)) c = some slots
        exact addChars_get_of_some (dictGet_dictInsert_self _ _ _)
      · have h1 : c ∈ cs := by
          rcases List.mem_cons.1 h with he | hm
          · exact absurd he hc
          · exact hm
        show dictGet (addChars slots cs (dictInsert g c0 slots)) c = some slots
        exact ih h1

theorem addChars_not_mem {slots : List (Option Legend)} :
    ∀ {cs : List Char} {g : Graph} {c : Char},
      c ∉ cs → dictGet (addChars slots cs g) c = dictGet g c := by
  intro cs
  induction cs with
  | nil => intro g c _; rfl
  | cons c0 cs ih =>
      intro g c h
      have h1 : c ∉ cs := fun hm => h (List.mem_cons_of_mem _ hm)
      have h2 : c ≠ c0 := fun he => h (by rw [he]; exact List.mem_cons_self _ _)
      show dictGet (addChars slots cs (dictInsert g c0 slots)) c = dictGet g c
      rw [ih h1, dictGet_dictInsert_ne _ _ _ _ h2]

theorem mem_addChars {slots : List (Option Legend)} :
    ∀ {cs : List Char} {g : Graph} {e : Char × List (Option Legend)},
      e ∈ addChars slots cs g → e ∈ g ∨ e.2 = slots := by
  intro cs
  induction cs with
  | nil => intro g e h; exact Or.inl h
  | cons c0 cs ih =>
      intro g e h
      have hh : e ∈ addChars slots cs (dictInsert g c0 slots) := h
      rcases ih hh with h' | h'
      · rcases mem_dictInsert h' with h1 | h1
        · exact Or.inl h1
        · exact Or.inr (by rw [h1])
      · exact Or.inr h'

theorem addChars_nodup_keys {slots : List (Option Legend)} :
    ∀ {cs : List Char} {g : Graph},
      (g.map Prod.fst).Nodup → ((addChars slots cs g).map Prod.fst).Nodup := by
  intro cs
  induction cs with
  | nil => intro g h; exact h
  | cons c0 cs ih =>
      intro g h
      show ((addChars slots cs (dictInsert g c0 slots)).map Prod.fst).Nodup
      exact ih (nodup_keys_dictInsert _ _ h)

theorem addEntries_append (slanted : Bool) (tbl : PosTable) :
    ∀ (es : List (Coord × Legend)) (e : Coord × Legend) (g : Graph),
      addEntries slanted tbl (es ++ [e]) g =
      addChars (neighborSlots slanted tbl e.1.1 e.1.2) e.2 (addEntries slanted tbl es g) := by
  intro es
  induction es with
  | nil =>
      intro e g
      obtain ⟨⟨x, y⟩, chars⟩ := e
      rfl
  | cons e0 rest ih =>
      intro e g
      obtain ⟨⟨x0, y0⟩, chars0⟩ := e0
      simpa [addEntries] using ih e _

theorem lastEntryWith_append (es : List (Coord × Legend)) (e : Coord × Legend) (c : Char) :
    lastEntryWith (es ++ [e]) c = if c ∈ e.2 then some e else lastEntryWith es c := by
  simp [lastEntryWith, List.foldl_append]

theorem addEntries_lastEntry (slanted : Bool) (tbl : PosTable) :
    ∀ (es : List (Coord × Legend)) (g : Graph) (c : Char),
      (lastEntryWith es c = none → dictGet (addEntries slanted tbl es g) c = dictGet g c) ∧
      (∀ x y tok, lastEntryWith es c = some ((x, y), tok) →
        dictGet (addEntries slanted tbl es g) c = some (neighborSlots slanted tbl x y)) := by
  intro es
  induction es using List.reverseRecOn with
  | nil =>
      intro g c
      constructor
      · intro _
        rfl
      · intro x y tok h
        simp [lastEntryWith] at h
  | append_singleton es e ih =>
      intro g c
      obtain ⟨⟨x0, y0⟩, tok0⟩ := e
      rw [addEntries_append, lastEntryWith_append]
      by_cases hc : c ∈ tok0
      · constructor
        · intro hnone
          simp [hc] at hnone
        · intro x y tok hsome
          simp only [hc, if_true, Option.some.injEq] at hsome
          have hx : x0 = x := congrArg (fun e => e.1.1) hsome
          have hy : y0 = y := congrArg (fun e => e.1.2) hsome
          rw [addChars_mem hc]
          rw [hx, hy]
      · constructor
        · intro hnone
          simp only [hc, if_false] at hnone
          rw [addChars_not_mem hc, (ih g c).1 hnone]
        · intro x y tok hsome
          simp only [hc, if_false] at hsome
          rw [addChars_not_mem hc]
          exact (ih g c).2 x y tok hsome

theorem lastEntryWith_aux_isSome (c : Char) :
    ∀ (es : List (Coord × Legend)) (init : Option (Coord × Legend)),
      (init.isSome ∨ ∃ e ∈ es, c ∈ e.2) →
      (es.foldl (fun acc e => if c ∈ e.2 then some e else acc) init).isSome := by
  intro es
  induction es with
  | nil =>
      intro init h
      rcases h with h | ⟨e, he, _⟩
      · exact h
      · exact absurd he (List.not_mem_nil e)
  | cons e0 rest ih =>
      intro init h
      simp only [List.foldl_cons]
      by_cases h0 : c ∈ e0.2
      · exact ih _ (Or.inl (by simp [h0]))
      · refine ih _ ?_
        rcases h with h | ⟨e, he, hce⟩
        · exact Or.inl (by simpa [h0] using h)
        · rcases List.mem_cons.1 he with rfl | he'
          · exact absurd hce h0
          · exact Or.inr ⟨e, he', hce⟩

theorem lastEntryWith_isSome_of_mem {es : List (Coord × Legend)} {e : Coord × Legend}
    (he : e ∈ es) {c : Char} (hc : c ∈ e.2) : (lastEntryWith es c).isSome :=
  lastEntryWith_aux_isSome c es none (Or.inr ⟨e, he, hc⟩)

theorem neighborSlots_length (slanted : Bool) (tbl : PosTable) (x y : Int) :
    (neighborSlots slanted tbl x y).length = if slanted then 6 else 8 := by
  cases slanted <;>
    simp [neighborSlots, adjCoords, get_slanted_adjacent_coords, get_aligned_adjacent_coords]

theorem addEntries_val_length {slanted : Bool} {tbl : PosTable} :
    ∀ {es : List (Coord × Legend)} {g : Graph},
      (∀ e ∈ g, (e.2 : List (Option Legend)).length = if slanted then 6 else 8) →
      ∀ e ∈ addEntries slanted tbl es g, e.2.length = if slanted then 6 else 8 := by
  intro es
  induction es with
  | nil => intro g hg e he; exact hg e he
  | cons e0 rest ih =>
      intro g hg e he
      obtain ⟨⟨x0, y0⟩, chars0⟩ := e0
      refine ih ?_ e he
      intro e' he'
      rcases mem_addChars he' with h' | h'
      · exact hg e' h'
      · rw [h']
        exact neighborSlots_length slanted tbl x0 y0

theorem addEntries_nodup_keys {slanted : Bool} {tbl : PosTable} :
    ∀ {es : List (Coord × Legend)} {g : Graph},
      (g.map Prod.fst).Nodup → ((addEntries slanted tbl es g).map Prod.fst).Nodup := by
  intro es
  induction es with
  | nil => intro g h; exact h
  | cons e0 rest ih =>
      intro g h
      obtain ⟨⟨x0, y0⟩, chars0⟩ := e0
      exact ih (addChars_nodup_keys h)

theorem keyCount_eq_one {g : Graph} {c : Char} (hn : (g.map Prod.fst).Nodup)
    (hs : (dictGet g c).isSome) : keyCount g c = 1 :=
  List.count_eq_one_of_mem hn (dictGet_isSome_iff_mem_keys.1 hs)

/-! ### Top-level `build_graph` lemmas -/

theorem build_graph_eq {layout : List Char} {slanted : Bool} {tbl : PosTable}
    (h : build_position_table layout slanted = .ok tbl) :
    build_graph layout slanted = .ok (addEntries slanted tbl tbl []) := by
  simp [build_graph, h]

theorem build_ok_width {layout : List Char} {slanted : Bool} {tbl : PosTable}
    (h : build_position_table layout slanted = .ok tbl) :
    ∀ t ∈ pySplit layout, t.length = tokenSize layout := by
  cases hsp : pySplit layout with
  | nil => simp
  | cons t0 ts =>
      simp only [build_position_table, hsp] at h
      by_cases hall : (t0 :: ts).all (fun t => t.length = t0.length) = true
      · intro t ht
        have := List.all_eq_true.1 hall t ht
        simp only [decide_eq_true_eq] at this
        rw [this, tokenSize, hsp]
      · rw [if_neg hall] at h
        exact absurd h (by simp)

theorem build_ok_placeLines {layout : List Char} {slanted : Bool} {tbl : PosTable}
    (h : build_position_table layout slanted = .ok tbl) :
    placeLines slanted (xUnit layout) (splitLines layout) 0 [] = .ok tbl := by
  cases hsp : pySplit layout with
  | nil => simp [build_position_table, hsp] at h
  | cons t0 ts =>
      simp only [build_position_table, hsp] at h
      by_cases hall : (t0 :: ts).all (fun t => t.length = t0.length) = true
      · rwa [if_pos hall] at h
      · rw [if_neg hall] at h
        exact absurd h (by simp)

theorem build_position_table_ok_iff (layout : List Char) (slanted : Bool) :
    (∃ tbl, build_position_table layout slanted = .ok tbl) ↔
    (widthOk layout = true ∧
      linesOk slanted (xUnit layout) (splitLines layout) 0 = true) := by
  cases hsp : pySplit layout with
  | nil => simp [build_position_table, hsp, widthOk]
  | cons t0 ts =>
      by_cases hall : (t0 :: ts).all (fun t => t.length = t0.length) = true
      · simp only [build_position_table, hsp, hall, if_true, widthOk, true_and]
        exact placeLines_ok_iff 0 []
      · simp [build_position_table, hsp, hall, widthOk]

theorem build_graph_ok_iff_table (layout : List Char) (slanted : Bool) :
    (∃ g, build_graph layout slanted = .ok g) ↔
    (∃ tbl, build_position_table layout slanted = .ok tbl) := by
  constructor
  · rintro ⟨g, hg⟩
    cases h : build_position_table layout slanted with
    | error e => simp [build_graph, h] at hg
    | ok tbl => exact ⟨tbl, rfl⟩
  · rintro ⟨tbl, h⟩
    exact ⟨_, build_graph_eq h⟩

/-! ### The claims -/

/-- C1: for every coordinate `(x, y)` the slanted-geometry offsets are exactly
the six coordinates `(x-1,y), (x,y-1), (x+1,y-1), (x+1,y), (x,y+1), (x-1,y+1)`
in that order (clockwise starting at left), and the aligned-geometry offsets
are exactly the eight coordinates `(x-1,y), (x-1,y-1), (x,y-1), (x+1,y-1),
(x+1,y), (x+1,y+1), (x,y+1), (x-1,y+1)` in that order. -/
theorem C1_direction_offsets (x y : Int) :
    get_slanted_adjacent_coords x y =
      [(x-1, y), (x, y-1), (x+1, y-1), (x+1, y), (x, y+1), (x-1, y+1)] ∧
    get_aligned_adjacent_coords x y =
      [(x-1, y), (x-1, y-1), (x, y-1), (x+1, y-1), (x+1, y), (x+1, y+1), (x, y+1), (x-1, y+1)] :=
  ⟨rfl, rfl⟩

/-- C3 counterexample: on the `keypad` diagram (aligned geometry) the graph
entry for '7' is NOT `[None, None, None, "=", "8", "5", "4", None]` — the
keypad diagram has no "=" key at all; '7' has upper-right neighbor "/".
(The "=" list quoted by the spec matches the source docstring of
`build_graph`, which itself describes the `mac_keypad` diagram, not
`keypad`; see `mac_keypad_seven`.) -/
theorem C3_counterexample :
    build_graph keypad false = .ok keypadGraph ∧
    dictGet keypadGraph '7' ≠
      some [none, none, none, some ("=").data, some ("8").data, some ("5").data,
        some ("4").data, none] :=
  ⟨rfl, by decide⟩

/-- C3 amended: on the `keypad` diagram built with aligned geometry, the graph
entry for '7' is exactly `[None, None, None, "/", "8", "5", "4", None]` in
clockwise order starting at left. -/
theorem C3_keypad_seven :
    build_graph keypad false = .ok keypadGraph ∧
    dictGet keypadGraph '7' =
      some [none, none, none, some ("/").data, some ("8").data, some ("5").data,
        some ("4").data, none] :=
  ⟨rfl, by decide⟩

/-- Context for C3: the neighbor list `[None, None, None, "=", "8", "5", "4",
None]` that the spec (and the source docstring) quotes for '7' is in fact the
entry the builder produces on the `mac_keypad` diagram. -/
theorem mac_keypad_seven :
    build_graph mac_keypad false = .ok macKeypadGraph ∧
    dictGet macKeypadGraph '7' =
      some [none, none, none, some ("=").data, some ("8").data, some ("5").data,
        some ("4").data, none] :=
  ⟨rfl, by decide⟩

/-- C4: on the slanted `qwerty_en` diagram, the graph entries for 'g' and 'G'
(the key with legend "gG") are both exactly `["fF", "tT", "yY", "hH", "bB",
"vV"]` in clockwise order starting at left. -/
theorem C4_qwerty_gG :
    build_graph qwerty_en true = .ok qwertyGraph ∧
    dictGet qwertyGraph 'g' =
      some [some ("fF").data, some ("tT").data, some ("yY").data, some ("hH").data,
        some ("bB").data, some ("vV").data] ∧
    dictGet qwertyGraph 'G' =
      some [some ("fF").data, some ("tT").data, some ("yY").data, some ("hH").data,
        some ("bB").data, some ("vV").data] :=
  ⟨rfl, by decide, by decide⟩

/-- C5 counterexample: the diagram `"aA aA"` places its two tokens at the same
coordinate `(0, 0)` (both are the same string, so `line.index` returns 0 for
each), yet the builder raises no error: it returns a position table with the
single collapsed entry and a graph — the collision is silently accepted,
contradicting the claim that it is fatal. -/
theorem C5_counterexample :
    pySplit dupLayout = [("aA").data, ("aA").data] ∧
    strIndexOf dupLayout (("aA").data) = some 0 ∧
    build_position_table dupLayout false = .ok [(((0 : Int), (0 : Int)), ("aA").data)] ∧
    build_graph dupLayout false =
      .ok [('a', [none, none, none, none, none, none, none, none]),
        ('A', [none, none, none, none, none, none, none, none])] :=
  ⟨by decide, by decide, rfl, rfl⟩

/-- C5 amended: the builder has no duplicate-coordinate check at all — a build
succeeds exactly when the token-width check and every token's
offset-remainder check pass. In particular a diagram whose tokens resolve to
the same coordinate (necessarily equal token strings) is silently accepted,
the later write overwriting the earlier, never a fatal error. -/
theorem C5_no_collision_check (layout : List Char) (slanted : Bool) :
    (∃ g, build_graph layout slanted = .ok g) ↔
    (widthOk layout = true ∧
      linesOk slanted (xUnit layout) (splitLines layout) 0 = true) := by
  rw [build_graph_ok_iff_table]
  exact build_position_table_ok_iff layout slanted

/-- C6: any diagram containing a token whose character length differs from the
first token's length is rejected by the width assert of source line 86:
`build_graph` returns the token-length-mismatch error and produces no graph,
not even a partial one. -/
theorem C6_width_mismatch_fatal (layout : List Char) (slanted : Bool)
    (t : Legend) (ht : t ∈ pySplit layout) (hlen : t.length ≠ tokenSize layout) :
    build_graph layout slanted = .error .tokenLenMismatch := by
  cases hsp : pySplit layout with
  | nil =>
      rw [hsp] at ht
      exact absurd ht (List.not_mem_nil t)
  | cons t0 ts =>
      have hall : ¬ ((t0 :: ts).all (fun x => x.length = t0.length) = true) := by
        intro hall
        apply hlen
        rw [hsp] at ht
        have := List.all_eq_true.1 hall t ht
        simp only [decide_eq_true_eq] at this
        rw [this, tokenSize, hsp]
      simp [build_graph, build_position_table, hsp, hall]

/-- Witness for C6 at the concrete diagram `"ab c"`. -/
theorem C6_width_mismatch_fatal_witness :
    build_graph badLayout false = .error .tokenLenMismatch :=
  C6_width_mismatch_fatal badLayout false (("c").data) (by decide) (by decide)

/-- C2: in a successful build, a token found on line `y` at character offset
`idx` is assigned the integer column coordinate
`(idx - slant) / x_unit` (floor division, `slant = y - 1` for slanted
geometry and `0` for aligned, `x_unit` = token width + 1), the division being
exact; and whenever the division leaves a non-zero remainder the build fails
with a fatal error instead of producing a graph. -/
theorem C2_column_coordinate (layout : List Char) (slanted : Bool)
    (y : Nat) (line : Legend) (hline : (splitLines layout)[y]? = some line)
    (token : Legend) (htok : token ∈ pySplit line)
    (idx : Nat) (hidx : strIndexOf line token = some idx) :
    (∀ T, build_position_table layout slanted = .ok T →
      Int.fmod ((idx : Int) - slantOf slanted (y : Int)) (xUnit layout) = 0 ∧
      dictGet T (Int.fdiv ((idx : Int) - slantOf slanted (y : Int)) (xUnit layout), (y : Int)) =
        some token) ∧
    (Int.fmod ((idx : Int) - slantOf slanted (y : Int)) (xUnit layout) ≠ 0 →
      ∀ g, build_graph layout slanted ≠ .ok g) := by
  have hpart1 : ∀ T, build_position_table layout slanted = .ok T →
      Int.fmod ((idx : Int) - slantOf slanted (y : Int)) (xUnit layout) = 0 ∧
      dictGet T (Int.fdiv ((idx : Int) - slantOf slanted (y : Int)) (xUnit layout), (y : Int)) =
        some token := by
    intro T hT
    have hw : ∀ l ∈ splitLines layout, ∀ t ∈ pySplit l, t.length = tokenSize layout :=
      fun l hl t ht => build_ok_width hT t (mem_pySplit_of_mem_line hl ht)
    obtain ⟨i, hi, hmod, hget⟩ :=
      placeLines_ok_mem hw (build_ok_placeLines hT) y line hline token htok
    have hieq : i = idx := by
      rw [hidx] at hi
      injection hi with hi
      exact hi.symm
    subst hieq
    have hy : (0 : Int) + (y : Int) = (y : Int) := by ring
    rw [hy] at hmod hget
    exact ⟨hmod, hget⟩
  refine ⟨hpart1, ?_⟩
  intro hmod g hg
  obtain ⟨T, hT⟩ := (build_graph_ok_iff_table layout slanted).1 ⟨g, hg⟩
  exact hmod (hpart1 T hT).1

/-- Witness for C2 on the keypad diagram: token "7" on line 2 at offset 0. -/
theorem C2_column_coordinate_witness :
    Int.fmod (((0 : Nat) : Int) - slantOf false ((2 : Nat) : Int)) (xUnit keypad) = 0 ∧
    dictGet keypadTable
      (Int.fdiv (((0 : Nat) : Int) - slantOf false ((2 : Nat) : Int)) (xUnit keypad),
        ((2 : Nat) : Int)) = some (("7").data) :=
  (C2_column_coordinate keypad false 2 (("7 8 9 +").data) (by decide) (("7").data)
    (by decide) 0 (by decide)).1 keypadTable rfl

/-- C7: on every diagram on which the build succeeds, every character that
occurs in any legend of the diagram is a key of the returned adjacency graph,
and every value of the graph is a list of exactly 6 slots for slanted
geometry and exactly 8 slots for aligned geometry (absence markers `none`
kept in their directional positions, being entries of that fixed-length
list). -/
theorem C7_graph_invariants (layout : List Char) (slanted : Bool) (G : Graph)
    (hG : build_graph layout slanted = .ok G) :
    (∀ line ∈ splitLines layout, ∀ t ∈ pySplit line, ∀ c ∈ t,
      (dictGet G c).isSome) ∧
    (∀ e ∈ G, (e.2 : List (Option Legend)).length = if slanted then 6 else 8) := by
  obtain ⟨T, hT⟩ := (build_graph_ok_iff_table layout slanted).1 ⟨G, hG⟩
  have hGeq : G = addEntries slanted T T [] := by
    have h2 := build_graph_eq hT
    rw [hG] at h2
    injection h2
  constructor
  · intro line hl t ht c hc
    obtain ⟨n, hn⟩ := List.mem_iff_getElem?.1 hl
    have hw : ∀ l ∈ splitLines layout, ∀ t' ∈ pySplit l, t'.length = tokenSize layout :=
      fun l hl' t' ht' => build_ok_width hT t' (mem_pySplit_of_mem_line hl' ht')
    obtain ⟨i, hi, hmod, hget⟩ :=
      placeLines_ok_mem hw (build_ok_placeLines hT) n line hn t ht
    have hmem := mem_of_dictGet_eq_some hget
    have hlast := lastEntryWith_isSome_of_mem hmem hc
    obtain ⟨⟨⟨x1, y1⟩, tok1⟩, hle⟩ := Option.isSome_iff_exists.1 hlast
    have hval := (addEntries_lastEntry slanted T T [] c).2 x1 y1 tok1 hle
    rw [hGeq, hval]
    rfl
  · intro e he
    rw [hGeq] at he
    exact addEntries_val_length (by simp) e he

/-- Witness for C7 on the keypad diagram: '7' is a key of the graph. -/
theorem C7_graph_invariants_witness : (dictGet keypadGraph '7').isSome :=
  (C7_graph_invariants keypad false keypadGraph rfl).1
    (("7 8 9 +").data) (by decide) (("7").data) (by decide) '7' (by decide)

/-- C8: for every key coordinate of a successfully built position table, the
neighbor-slot list built for that key (and assigned to each character of its
legend) contains an absence marker iff some direction offset of the
coordinate is unoccupied: at least one `none` when an offset is absent from
the table, no `none` when all offsets are present. -/
theorem C8_edge_keys (layout : List Char) (slanted : Bool) (T : PosTable)
    (hT : build_position_table layout slanted = .ok T)
    (x y : Int) (tok : Legend) (hmem : ((x, y), tok) ∈ T) :
    ((∃ c ∈ adjCoords slanted x y, dictGet T c = none) →
      none ∈ neighborSlots slanted T x y) ∧
    ((∀ c ∈ adjCoords slanted x y, (dictGet T c).isSome) →
      ¬ none ∈ neighborSlots slanted T x y) := by
  constructor
  · rintro ⟨c, hc, hnone⟩
    exact List.mem_map.2 ⟨c, hc, hnone⟩
  · intro hall hmemnone
    obtain ⟨c, hc, hcnone⟩ := List.mem_map.1 hmemnone
    have hsome := hall c hc
    rw [hcnone] at hsome
    exact absurd hsome (by simp)

/-- Witness for C8: '7' sits at keypad coordinate (0, 2); its left offset
(-1, 2) is unoccupied, so its slot list contains an absence marker. -/
theorem C8_edge_keys_witness : none ∈ neighborSlots false keypadTable 0 2 :=
  (C8_edge_keys keypad false keypadTable rfl 0 2 (("7").data) (by decide)).1
    ⟨((-1 : Int), (2 : Int)), by decide, by decide⟩

/-- C9: when the same character occurs in legends at two or more distinct
coordinates of a successfully built table (as 'z' does in `qwertz_de`),
`build_graph` raises no error; the returned graph holds exactly one entry for
that character, containing the neighbor slots of whichever occurrence was
processed last in position-table insertion order. -/
theorem C9_duplicate_chars (layout : List Char) (slanted : Bool) (T : PosTable)
    (hT : build_position_table layout slanted = .ok T) (c : Char)
    (hdup : ∃ e1 ∈ T, ∃ e2 ∈ T, c ∈ e1.2 ∧ c ∈ e2.2 ∧ e1.1 ≠ e2.1)
    (x y : Int) (tok : Legend)
    (hlast : lastEntryWith T c = some ((x, y), tok)) :
    build_graph layout slanted = .ok (addEntries slanted T T []) ∧
    dictGet (addEntries slanted T T []) c = some (neighborSlots slanted T x y) ∧
    keyCount (addEntries slanted T T []) c = 1 := by
  refine ⟨build_graph_eq hT, ?_, ?_⟩
  · exact (addEntries_lastEntry slanted T T [] c).2 x y tok hlast
  · have hs : (dictGet (addEntries slanted T T []) c).isSome := by
      rw [(addEntries_lastEntry slanted T T [] c).2 x y tok hlast]
      rfl
    exact keyCount_eq_one (addEntries_nodup_keys (by simp)) hs

/-- Witness for C9 on `qwertz_de`: 'z' occurs in "zZ" at (6, 2) and (1, 4);
its final entry carries the slots of (1, 4), the last-inserted occurrence,
and the graph holds exactly one entry for 'z'. -/
theorem C9_duplicate_chars_witness :
    dictGet (addEntries true qwertzTable qwertzTable []) 'z' =
      some (neighborSlots true qwertzTable 1 4) ∧
    keyCount (addEntries true qwertzTable qwertzTable []) 'z' = 1 :=
  (C9_duplicate_chars qwertz_de true qwertzTable rfl 'z'
    ⟨(((6 : Int), (2 : Int)), ("zZ").data), by decide,
      (((1 : Int), (4 : Int)), ("zZ").data), by decide, by decide, by decide, by decide⟩
    1 4 (("zZ").data) (by decide)).2

/-- C10: a token's horizontal character offset is the index of its first
occurrence as a substring of its line (and of no earlier position); hence on
a line listing the same token twice, every occurrence is assigned the column
of the first one, and all of them collapse onto a single position-table
entry — there is exactly one row-`y` coordinate holding the token, not one
per occurrence, and no error is raised. -/
theorem C10_first_occurrence (line : Legend) (y slant u : Int)
    (tbl tbl' : PosTable) (t : Legend) (i : Nat)
    (hfind : strIndexOf line t = some i) :
    (startsWith (line.drop i) t = true ∧
      ∀ j, j < i → startsWith (line.drop j) t = false) ∧
    (placeTokens line y slant u (pySplit line) tbl = .ok tbl' →
      (∀ x, dictGet tbl (x, y) = none) →
      (∀ t' ∈ pySplit line, t'.length = t.length) →
      t ∈ pySplit line →
      dictGet tbl' (Int.fdiv ((i : Int) - slant) u, y) = some t ∧
      ∀ x, dictGet tbl' (x, y) = some t → x = Int.fdiv ((i : Int) - slant) u) := by
  constructor
  · exact ⟨strIndexOf_startsWith hfind, strIndexOf_first hfind⟩
  · intro hpt hfresh hw hmem
    obtain ⟨i', hi', hmod, hget⟩ := placeTokens_ok_mem hw hpt t hmem
    have hieq : i' = i := by
      rw [hfind] at hi'
      injection hi' with h0
      exact h0.symm
    rw [hieq] at hget
    refine ⟨hget, ?_⟩
    intro x hx
    rcases placeTokens_provenance hpt _ _ hx with hleft | ⟨_, i2, hi2, _, hk2⟩
    · rw [hfresh x] at hleft
      exact absurd hleft (by simp)
    · have hx2 : x = Int.fdiv ((i2 : Int) - slant) u := congrArg Prod.fst hk2
      have hieq2 : i2 = i := by
        rw [hfind] at hi2
        injection hi2 with h0
        exact h0.symm
      rw [hx2, hieq2]

/-- Witness for C10 on the line `"aA aA"`: both occurrences of "aA" collapse
onto the single entry at coordinate (0, 0). -/
theorem C10_first_occurrence_witness :
    dictGet [(((0 : Int), (0 : Int)), ("aA").data)]
      (Int.fdiv (((0 : Nat) : Int) - 0) 3, 0) = some (("aA").data) :=
  ((C10_first_occurrence dupLayout 0 0 3 [] [(((0 : Int), (0 : Int)), ("aA").data)]
    (("aA").data) 0 (by decide)).2 rfl (fun _ => rfl) (by decide) (by decide)).1

end KeyboardGraphs
